import Mathlib

/-!
Verification of the event-evaluation (vm::eval) and federated-fetch core of
the Construct Matrix homeserver, as a shallow embedding in Lean 4.

The definitions below translate the relevant C++ functions from
`src/matrix/vm_eval.cc` and the fetch module (`ircd::m::fetch`) into
executable Lean functions.  External collaborators that the core only calls
(key cache, signature primitive, server pool, random sampling) are passed in
as parameters of the embedding.  Machine timestamps are modelled as `Nat`
(unix seconds from a monotone clock).
-/

namespace Construct

/-! ## Registry (vm::eval): the live-Eval list and its queries

An `Eval` is the runtime evaluation record.  Only the fields consulted by
the registry queries are modelled:
* `sequence` — commit sequence, `0` until the commit phase;
* `event_`   — `some bodyId` when an in-flight event body is present
  (`e.event_` pointer in the C++); the value is the body's `event_id`;
* `issue`    — `some fields` when an injection payload is present
  (`e.issue` pointer); `fields` is `some v` when the payload has an
  `event_id` member with value `v`, else `none`;
* `event_id` — the one-event-id shortcut member (empty string when unset).
-/

structure Eval where
  id : Nat
  ctx : Nat
  sequence : Nat
  event_ : Option String
  issue : Option (Option String)
  event_id : String
deriving DecidableEq, Repr

/-- One Eval's match test as performed inside the loop body of
`ircd::m::vm::eval::find`: an exclusive `if / else if / else if` chain on
the presence of the event body and the injection payload. -/
def evalMatch (e : Eval) (eid : String) : Bool :=
  match e.event_ with
  | some bodyId => bodyId == eid
  | none =>
    match e.issue with
    | some fields =>
      match fields with
      | some v => v == eid
      | none => false
    | none => e.event_id == eid

/-- Embedding of `ircd::m::vm::eval::find(event_id)`: scan the live list, returning the
first Eval whose match test fires (the closure stops once `ret` is set). -/
def find (l : List Eval) (eid : String) : Option Eval :=
  l.find? (fun e => evalMatch e eid)

/-- Embedding of `ircd::m::vm::eval::get(event_id)`: `find`, then throw
`std::out_of_range` when nothing was found.  The pair's second component is
the registry after the call (the C++ function never mutates the list). -/
def get (l : List Eval) (eid : String) : Except String Eval × List Eval :=
  match find l eid with
  | none => (Except.error "eval::get(): event_id not being evaluated.", l)
  | some e => (Except.ok e, l)

/-- The spec's matcher for `find`, written as the spec words it: a plain
disjunction of the three conditions (a) body id equals, (b) injection
payload's `event_id` field equals, (c) shortcut field equals.  Used to
compare the specified behaviour with the code's prioritized chain. -/
def specMatch (e : Eval) (eid : String) : Bool :=
  (match e.event_ with | some bodyId => bodyId == eid | none => false)
  || (match e.issue with | some (some v) => v == eid | _ => false)
  || e.event_id == eid

/-- The comparator used by `seqmin` (`std::min_element` closure): a zero
sequence is never "less", anything is less than a zero sequence, otherwise
compare sequences. -/
def seqminLt (a b : Eval) : Bool :=
  if a.sequence == 0 then false
  else if b.sequence == 0 then true
  else a.sequence < b.sequence

/-- The comparator used by `seqmax` (`std::max_element` closure). -/
def seqmaxLt (a b : Eval) : Bool :=
  a.sequence < b.sequence

/-- Embedding of `std::min_element` over the eval list: first element of the list that is
minimal under the strict-weak-order `lt` (the running best is replaced when
`lt candidate best`). -/
def min_element (lt : Eval → Eval → Bool) : List Eval → Option Eval
  | [] => none
  | x :: xs => some (xs.foldl (fun best y => if lt y best then y else best) x)

/-- Embedding of `std::max_element` over the eval list (the running best is replaced when
`lt best candidate`). -/
def max_element (lt : Eval → Eval → Bool) : List Eval → Option Eval
  | [] => none
  | x :: xs => some (xs.foldl (fun best y => if lt best y then y else best) x)

/-- Embedding of `ircd::m::vm::eval::seqmin()`: `std::min_element` with `seqminLt`,
then `nullptr` when the found element's sequence is zero. -/
def seqmin (l : List Eval) : Option Eval :=
  match min_element seqminLt l with
  | none => none
  | some e => if e.sequence == 0 then none else some e

/-- Embedding of `ircd::m::vm::eval::seqmax()`: `std::max_element` on plain sequence
comparison, then `nullptr` when the found element's sequence is zero. -/
def seqmax (l : List Eval) : Option Eval :=
  match max_element seqmaxLt l with
  | none => none
  | some e => if e.sequence == 0 then none else some e

/-- Concrete registry used to witness `seqmin_seqmax_spec`. -/
def seqEvalA : Eval := { id := 1, ctx := 0, sequence := 3, event_ := none, issue := none, event_id := "" }

def seqEvalB : Eval := { id := 2, ctx := 0, sequence := 0, event_ := none, issue := none, event_id := "" }

def seqEvalC : Eval := { id := 3, ctx := 0, sequence := 2, event_ := none, issue := none, event_id := "" }

/-- Concrete Eval refuting the disjunction reading of `find`: an event body
is in flight (with id `$A`), and the one-event-id shortcut field holds
`$B`. -/
def chainEval : Eval :=
  { id := 1, ctx := 0, sequence := 0, event_ := some "$A", issue := none, event_id := "$B" }

/-! ## Parent/child links of live Evals (vm_eval.cc constructor/destructor)

The constructor (`eval::eval(const vm::opts &)`) snapshots `find_parent` and
installs itself as that parent's child, asserting the parent had none; the
destructor asserts the Eval has no child itself and resets its parent's
child pointer.  Modelled as an arena of nodes (the `instance_list`) indexed
by id, with a step relation whose side conditions are exactly the
constructor/destructor assertions. -/

structure EvalNode where
  id : Nat
  ctx : Nat
  parent : Option Nat
  child : Option Nat
deriving DecidableEq, Repr

/-- Embedding of `ircd::m::vm::eval::find_parent(a, c)`: scan live Evals of task `c` and
return the one with the greatest id other than `a` itself (the loop keeps
`ret` and replaces it when `(&eval != &a) && (!ret || eval.id > ret->id)`). -/
def find_parent (s : List EvalNode) (selfId c : Nat) : Option EvalNode :=
  s.foldl
    (fun ret e =>
      if e.ctx == c then
        if e.id != selfId && (match ret with | none => true | some r => r.id < e.id)
        then some e
        else ret
      else ret)
    none

/-- Reset or install the child pointer of the node with id `pid`
(`parent->child = this` in the constructor, `parent->child = nullptr` in
the destructor). -/
def setChild (s : List EvalNode) (pid : Nat) (c : Option Nat) : List EvalNode :=
  s.map (fun e => if e.id == pid then { e with child := c } else e)

/-- The Eval constructor: register in the instance list, snapshot
`find_parent` (the new node itself is on the list during the scan and is
excluded by the self check), and when a parent exists install the new node
as its child. -/
def evalCtor (s : List EvalNode) (i c : Nat) : List EvalNode :=
  let self : EvalNode := { id := i, ctx := c, parent := none, child := none }
  match find_parent (s ++ [self]) i c with
  | none => s ++ [self]
  | some p => setChild s p.id (some i) ++ [{ self with parent := some p.id }]

/-- The Eval destructor: reset the parent's child pointer when a parent
exists, then deregister from the instance list. -/
def evalDtor (s : List EvalNode) (e : EvalNode) : List EvalNode :=
  (match e.parent with
   | none => s
   | some pid => setChild s pid none).filter (fun x => x.id != e.id)

/-- One registry operation.  The side conditions are the constructor's
assertion (`assert(!parent->child)`) plus freshness of the monotonic id,
and the destructor's assertion (`assert(!child)`). -/
inductive EvalStep : List EvalNode → List EvalNode → Prop
  | ctor (s : List EvalNode) (i c : Nat)
      (fresh : ∀ e ∈ s, e.id ≠ i)
      (noChild : (find_parent (s ++ [⟨i, c, none, none⟩]) i c).all
          (fun p => p.child == none) = true) :
      EvalStep s (evalCtor s i c)
  | dtor (s : List EvalNode) (e : EvalNode)
      (mem : e ∈ s)
      (noChild : e.child = none) :
      EvalStep s (evalDtor s e)

/-- A registry state reachable from the empty instance list by
constructions and destructions satisfying the assertions. -/
def EvalReachable (s : List EvalNode) : Prop :=
  Relation.ReflTransGen EvalStep [] s

/-- Every child pointer designates a live node whose parent pointer points
back (the claim's invariant, strengthened to name the node). -/
def childLinked (s : List EvalNode) : Prop :=
  ∀ e ∈ s, ∀ cid, e.child = some cid → ∃ f ∈ s, f.id = cid ∧ f.parent = some e.id

/-- Every parent pointer designates a live node whose child pointer points
back. -/
def parentLinked (s : List EvalNode) : Prop :=
  ∀ e ∈ s, ∀ pid, e.parent = some pid → ∃ f ∈ s, f.id = pid ∧ f.child = some e.id

def idsNodup (s : List EvalNode) : Prop :=
  (s.map EvalNode.id).Nodup

/-- The inductive invariant of the live-Eval registry. -/
def EvalInv (s : List EvalNode) : Prop :=
  idsNodup s ∧ childLinked s ∧ parentLinked s

/-! ## Batch construction (vm_eval.cc `eval(const json::array &, const vm::opts &)`)

The batch constructor copies the events out of the JSON array, truncates to
`opts.limit`, and sorts with `std::sort` (default `m::event::operator<`)
unless `opts.ordered`.  Only the three comparison keys of an event are
modelled. -/

structure BEvent where
  depth : Int
  origin_server_ts : Int
  event_id : String
deriving DecidableEq, Repr

/-- Modelled from the spec: `m::event::operator<` is not under src/; the
spec states the batch sort uses primary key `depth`, tie-break on
`origin_server_ts`, then `event_id` lexicographic. -/
def eventLt (a b : BEvent) : Bool :=
  a.depth < b.depth
  || (a.depth == b.depth
    && (a.origin_server_ts < b.origin_server_ts
      || (a.origin_server_ts == b.origin_server_ts && a.event_id < b.event_id)))

/-- The non-strict order induced by the sort comparator: `std::sort` with
`eventLt` yields a sequence with no inversion, i.e. sorted by
`fun a b => !eventLt b a`. -/
def eventLe (a b : BEvent) : Bool :=
  !eventLt b a

/-- The body of `eval(const json::array &pdus, const vm::opts &opts)`:
`events.resize(opts.limit)` when oversize (keeping the first `limit`
entries), then `std::sort` unless `opts.ordered`.  `std::sort` is modelled
by merge sort: any comparison sort agrees up to the sorted-permutation
contract. -/
def evalBatch (pdus : List BEvent) (limit : Nat) (ordered : Bool) : List BEvent :=
  let events := pdus.take limit
  if !ordered then events.mergeSort eventLe else events

/-- The strict lexicographic order (depth, origin_server_ts, event_id) as a
proposition. -/
def LexLt (a b : BEvent) : Prop :=
  a.depth < b.depth ∨ (a.depth = b.depth ∧ (a.origin_server_ts < b.origin_server_ts
    ∨ (a.origin_server_ts = b.origin_server_ts ∧ a.event_id < b.event_id)))

/-- The lexicographic order (depth, origin_server_ts, event_id), non-strict
in the last component. -/
def LexLe (a b : BEvent) : Prop :=
  a.depth < b.depth ∨ (a.depth = b.depth ∧ (a.origin_server_ts < b.origin_server_ts
    ∨ (a.origin_server_ts = b.origin_server_ts ∧ a.event_id ≤ b.event_id)))

def c5e1 : BEvent := { depth := 3, origin_server_ts := 0, event_id := "$e1" }

def c5e2 : BEvent := { depth := 1, origin_server_ts := 0, event_id := "$e2" }

def c5e3 : BEvent := { depth := 2, origin_server_ts := 0, event_id := "$e3" }

/-! ## Events as consumed by `mfetch_keys` and `check_response`

Only the fields these functions consult are modelled: `origin` (absent or
empty modelled as `none`), `sender`, and the `signatures` object as an
ordered association of server name to the ordered list of key ids.  Both
functions assume the `signatures` member is present (they access it with
the throwing `at<"signatures"_>`; Matrix events always carry it). -/

structure MEvent where
  origin : Option String
  sender : String
  signatures : List (String × List String)
deriving DecidableEq, Repr

/-- Modelled from the spec: `m::user::id::host()` is not under src/; the
spec states a sender is a user id of the form `@local:host`, so the host is
everything after the first colon. -/
def hostOf (s : String) : String :=
  match s.splitOn ":" with
  | [] => ""
  | [_] => ""
  | _ :: rest => String.intercalate ":" rest

/-- The responsible server of an event: the `origin` field, or the sender's
host when `origin` is absent.  Both `mfetch_keys` and `check_response`
compute it this way. -/
def originOf (e : MEvent) : String :=
  match e.origin with
  | some o => o
  | none => hostOf e.sender

/-- Insertion into the `std::set<server_key>` of missing keys (the set is
modelled as a duplicate-free list; ordering of the set is immaterial to the
claims). -/
def insertPair (l : List (String × String)) (p : String × String) : List (String × String) :=
  if l.contains p then l else l ++ [p]

/-- Embedding of `ircd::m::vm::eval::mfetch_keys()`: collect the `(origin, key_id)`
pairs missing from the key cache over the batch — skipping events whose
origin differs from `opts.node_id` when that is set — and call
`m::keys::fetch` on them unless nothing is missing.  Returns the queried
set and whether the batched fetch call is made. -/
def mfetch_keys (cacheHas : String → String → Bool) (node_id : Option String)
    (pdus : List MEvent) : List (String × String) × Bool :=
  let miss := pdus.foldl
    (fun acc ev =>
      let origin := originOf ev
      if node_id.isSome && node_id != some origin then acc
      else ev.signatures.foldl
        (fun acc2 sn =>
          sn.2.foldl
            (fun acc3 key_id =>
              if !cacheHas origin key_id then insertPair acc3 (origin, key_id) else acc3)
            acc2)
        acc)
    []
  (miss, !miss.isEmpty)

def c8cache : String → String → Bool := fun _ _ => false

def c8event : MEvent :=
  { origin := some "s1.example", sender := "@u:s1.example",
    signatures := [("s1.example", ["ed25519:k1"])] }

/-! ## Fetch response validation (`ircd::m::fetch::check_response`) -/

/-- The three `conf` items gating response validation
(`ircd.m.fetch.check.{event_id,conforms,signature}`). -/
structure CheckOpts where
  check_event_id : Bool
  check_conforms : Bool
  check_signature : Bool
deriving DecidableEq, Repr

/-- The configured defaults: `check.event_id = true`,
`check.conforms = false`, `check.signature = true`. -/
def defaultCheckOpts : CheckOpts :=
  { check_event_id := true, check_conforms := false, check_signature := true }

/-- Embedding of `ircd::m::fetch::check_response(request, response)` as written.  The
externally supplied primitives are parameters: `check_id` is
`m::check_id(event)` (reference-hash id recomputation), `conforms_clean`
the conformance check, `cacheHas` is `m::keys::cache::has`, and `verify`
the signature verification against a named server.  Note the code fetches
the signatures object with the literal key `"server"`
(`at<"signatures"_>(event).at("server")`), not the computed responsible
server. -/
def check_response (opts : CheckOpts)
    (check_id : MEvent → Bool) (conforms_clean : MEvent → Bool)
    (cacheHas : String → String → Bool) (verify : MEvent → String → Bool)
    (event : MEvent) : Except String Unit :=
  if opts.check_event_id && !check_id event then
    Except.error "event::id claim mismatch"
  else if opts.check_conforms && !conforms_clean event then
    Except.error "Non-conforming event in response"
  else if opts.check_signature then
    let server := match event.origin with
      | none => hostOf event.sender
      | some o => o
    match event.signatures.lookup "server" with
    | none => Except.error "json::object::at: signatures has no such member"
    | some keys =>
      let key_id := match keys.head? with
        | some k => k
        | none => ""
      if key_id == "" then
        Except.error "Cannot find any keys in event.signatures"
      else if cacheHas server key_id then
        if !verify event server then Except.error "Signature verification failed."
        else Except.ok ()
      else Except.ok ()
  else Except.ok ()

/-- Modelled from the spec: §4.3 response validation step 4 — "if
`check.signature` and the server's signing key is in the cache: verify;
reject on failure", the server being the response event's `origin` or the
sender's host.  Identical to `check_response` except that the signatures
object consulted is the responsible server's entry `signatures[server]`
rather than the literal key `"server"`. -/
def check_response_spec (opts : CheckOpts)
    (check_id : MEvent → Bool) (conforms_clean : MEvent → Bool)
    (cacheHas : String → String → Bool) (verify : MEvent → String → Bool)
    (event : MEvent) : Except String Unit :=
  if opts.check_event_id && !check_id event then
    Except.error "event::id claim mismatch"
  else if opts.check_conforms && !conforms_clean event then
    Except.error "Non-conforming event in response"
  else if opts.check_signature then
    let server := match event.origin with
      | none => hostOf event.sender
      | some o => o
    match event.signatures.lookup server with
    | none => Except.error "json::object::at: signatures has no such member"
    | some keys =>
      let key_id := match keys.head? with
        | some k => k
        | none => ""
      if key_id == "" then
        Except.error "Cannot find any keys in event.signatures"
      else if cacheHas server key_id then
        if !verify event server then Except.error "Signature verification failed."
        else Except.ok ()
      else Except.ok ()
  else Except.ok ()

def c3event : MEvent :=
  { origin := some "s1.example", sender := "@u:s1.example",
    signatures := [("s1.example", ["ed25519:k1"])] }

/-! ## The fetch unit (`ircd::m::fetch`)

A `Request` models `fetch::request`: the immutable key (`room_id`,
`event_id`), the single-shot promise (identified by a number), the
currently selected `origin` (empty string when unset, as the C++
`string_view` is), the `attempted` set, the three timestamps and the
latched exception flag `eptr`.  The external collaborators — the room's
origin set, `my_host`, the server-pool error latch `server::errmsg` and the
success of constructing the `m::v1::event` federation request — are the
fields of `FetchEnv`.  All timestamp reads within one operation are
collapsed to that operation's `now` (the clock is monotone). -/

structure Request where
  room_id : String
  event_id : String
  promise : Nat
  origin : String
  attempted : List String
  started : Nat
  last : Nat
  finished : Nat
  eptr : Bool
deriving DecidableEq, Repr

/-- Embedding of `fetch::request::request(room_id, event_id, bufsz)`: only the key is
set; timestamps are zero, no origin selected, nothing attempted. -/
def mkRequest (room_id event_id : String) (promise : Nat) : Request :=
  { room_id, event_id, promise, origin := "", attempted := [],
    started := 0, last := 0, finished := 0, eptr := false }

structure FetchEnv where
  originsOf : String → List String
  my_host : String → Bool
  errmsg : String → Bool
  issueOk : Request → Bool

/-- Modelled from the spec: `m::room::origins::random(closure, proffer)` is
not under src/; the spec states it uniformly samples one origin satisfying
the proffer.  The sample is driven by an external random index `rand`;
`none` when no origin satisfies the proffer. -/
def originsRandom (origins : List String) (proffer : String → Bool) (rand : Nat) :
    Option String :=
  if h : (origins.filter proffer).length = 0 then none
  else some ((origins.filter proffer).get
    ⟨rand % (origins.filter proffer).length, Nat.mod_lt _ (Nat.pos_of_ne_zero h)⟩)

/-- Embedding of `ircd::m::fetch::select_origin(request, origin)`: copy the origin into
the `attempted` set and point `request.origin` at the stored copy. -/
def select_origin (r : Request) (origin : String) : Request :=
  { r with
    attempted := if r.attempted.contains origin then r.attempted else r.attempted ++ [origin],
    origin := origin }

/-- The error taxonomy values the fetch unit raises. -/
inductive FetchErr
  | NOT_FOUND
deriving DecidableEq, Repr

/-- The proffer closure of `select_random_origin`: an origin is viable when
it is not the local server, not already attempted, and not latched with an
error by `ircd::server`. -/
def fetchProffer (env : FetchEnv) (r : Request) (origin : String) : Bool :=
  if env.my_host origin then false
  else if r.attempted.contains origin then false
  else if env.errmsg origin then false
  else true

/-- Embedding of `ircd::m::fetch::select_random_origin(request)`: reset `origin`, sample
an origin of the request's room satisfying the three proffer predicates,
and install it via `select_origin`; throw `M_NOT_FOUND` when the sample
fails or the selected origin is empty.  The thrown error carries the
mutated request (as the C++ mutates it in place before throwing). -/
def select_random_origin (env : FetchEnv) (rand : Nat) (r : Request) :
    Except (FetchErr × Request) Request :=
  match originsRandom (env.originsOf r.room_id) (fetchProffer env r) rand with
  | none => Except.error (FetchErr.NOT_FOUND, { r with origin := "" })
  | some o =>
    if (select_origin { r with origin := "" } o).origin == "" then
      Except.error (FetchErr.NOT_FOUND, select_origin { r with origin := "" } o)
    else Except.ok (select_origin { r with origin := "" } o)

/-- Embedding of `ircd::m::fetch::start(request &, m::v1::event::opts &)`: stamp
`started` on first issuance, stamp `last`, then construct the federation
request bound to `(event_id, buf, opts{remote = origin})`; a synchronous
construction failure cancels the transport and reports `false`. -/
def start1 (env : FetchEnv) (now : Nat) (r : Request) : Bool × Request :=
  let r1 := if r.started = 0 then { r with started := now } else r
  let r2 := { r1 with last := now }
  (env.issueOk r2, r2)

/-- Embedding of `ircd::m::fetch::finish(request &)`: stamp `finished` and transfer the
result or the latched exception into the promise. -/
def finishReq (now : Nat) (r : Request) : Request :=
  { r with finished := now }

/-- The outcome of `fetch::start(request &)`: its return value, the
request's final state, and the trace of issuance attempts (the request's
state at each `start(request, opts)` call). -/
structure StartOut where
  ok : Bool
  req : Request
  issued : List Request
deriving Repr

/-- The `while(request.origin)` loop of `fetch::start(request &)`: try to
issue; on success return `true`; on issuance failure rotate via
`select_random_origin`, whose `M_NOT_FOUND` throw is caught by `start`'s
`catch(...)`, latching `eptr` and finishing.  `fuel` bounds the rotation
(each rotation adds an unattempted origin to `attempted`, so
`|origins| + 1` suffices; running out of fuel returns without mutating). -/
def startLoop (env : FetchEnv) (rand : Nat → Nat) (now : Nat) :
    Nat → Nat → Request → List Request → StartOut
  | 0, _, r, acc => ⟨false, r, acc⟩
  | fuel + 1, k, r, acc =>
    if r.origin == "" then
      ⟨false, finishReq now r, acc⟩
    else
      match start1 env now r with
      | (true, r1) => ⟨true, r1, acc ++ [r1]⟩
      | (false, r1) =>
        match select_random_origin env (rand k) r1 with
        | Except.ok r2 => startLoop env rand now fuel (k + 1) r2 (acc ++ [r1])
        | Except.error (_, rerr) =>
          ⟨false, finishReq now { rerr with eptr := true }, acc ++ [r1]⟩

/-- The tail of `fetch::start(request &)` after the `started` stamp: select
an origin when none is set, then run the rotation loop; a `select` throw is
caught by the enclosing `catch(...)`, latching `eptr` and finishing with
`false`. -/
def startAfterStamp (env : FetchEnv) (rand : Nat → Nat) (now : Nat) (r0 : Request) :
    StartOut :=
  if r0.origin == "" then
    match select_random_origin env (rand 0) r0 with
    | Except.error (_, rerr) => ⟨false, finishReq now { rerr with eptr := true }, []⟩
    | Except.ok r1 =>
      startLoop env rand now ((env.originsOf r1.room_id).length + 1) 1 r1 []
  else
    startLoop env rand now ((env.originsOf r0.room_id).length + 1) 0 r0 []

/-- Embedding of `ircd::m::fetch::start(request &)`: stamp `started` if unset, then
select and run the rotation loop. -/
def startOuter (env : FetchEnv) (rand : Nat → Nat) (now : Nat) (r : Request) : StartOut :=
  startAfterStamp env rand now (if r.started = 0 then { r with started := now } else r)

/-- Embedding of `ircd::m::fetch::retry(request &)`: cancel the transport, clear the
latched exception and the origin, and start again. -/
def retryReq (env : FetchEnv) (rand : Nat → Nat) (now : Nat) (r : Request) : StartOut :=
  startOuter env rand now { r with eptr := false, origin := "" }

/-- Embedding of `ircd::m::fetch::handle(request &)`: validate the response (`failed`
abstracts "`check_response` threw"); on failure latch `eptr` and `retry`,
otherwise `finish`. -/
def handleReq (env : FetchEnv) (rand : Nat → Nat) (now : Nat) (r : Request)
    (failed : Bool) : StartOut :=
  if !(if failed then { r with eptr := true } else r).eptr then
    ⟨false, finishReq now (if failed then { r with eptr := true } else r), []⟩
  else retryReq env rand now (if failed then { r with eptr := true } else r)

/-- The future `fetch::submit` returns: empty (invalid) on duplicate
submission, otherwise backed by the request's promise. -/
inductive Future
  | empty
  | backed (promise : Nat)
deriving DecidableEq, Repr

/-- Embedding of `requests.lower_bound(string_view(event_id))` on the sorted set,
modelled on the sorted list: first element not less than the key. -/
def lowerBound : List Request → String → Option Request
  | [], _ => none
  | x :: xs, k => if x.event_id < k then lowerBound xs k else some x

/-- Embedding of `requests.emplace_hint(it, ...)` on the sorted set: ordered insertion
by `event_id` (the set's `operator<`). -/
def insertReq : List Request → Request → List Request
  | [], r => [r]
  | x :: xs, r => if r.event_id < x.event_id then r :: x :: xs else x :: insertReq xs r

/-- The duplicate test of `submit`: `lower_bound`, then compare the found
element's `event_id` with the key. -/
def submitDup (requests : List Request) (event_id : String) : Bool :=
  match lowerBound requests event_id with
  | some x => x.event_id == event_id
  | none => false

/-- Embedding of `ircd::m::fetch::submit(event_id, room_id, bufsz, ...)`: under
`requests_mutex`, `lower_bound` by `event_id`; if a request with that id
already exists return an empty future (`//TODO: shared_future`); otherwise
emplace the new request, take the future from its promise, and
`start(request)`. -/
def submit (env : FetchEnv) (rand : Nat → Nat) (now : Nat)
    (requests : List Request) (event_id room_id : String) (promise : Nat) :
    List Request × Future :=
  if submitDup requests event_id then (requests, Future.empty)
  else
    (insertReq requests (startOuter env rand now (mkRequest room_id event_id promise)).req,
      Future.backed promise)

def c2env : FetchEnv :=
  { originsOf := fun _ => ["o1.example", "o2.example"],
    my_host := fun _ => false,
    errmsg := fun o => o == "o1.example",
    issueOk := fun _ => false }

def c2req : Request := mkRequest "!room" "$event" 7

def c2sel : Request := { c2req with origin := "o2.example", attempted := ["o2.example"] }

/-- The invariant at entry to the rotation loop: timestamps no later than
`now`, not yet finished, `last` set only after `started`. -/
def LoopInv (now : Nat) (r : Request) : Prop :=
  r.started ≤ now ∧ r.last ≤ now ∧ r.finished = 0
  ∧ (r.started = 0 → r.last = 0)
  ∧ (0 < r.last → r.started ≤ r.last)

/-- The timestamp invariant of a request after any fetch operation at time
`now`. -/
def TimeInv (now : Nat) (r : Request) : Prop :=
  r.started ≤ now ∧ r.last ≤ now ∧ r.finished ≤ now
  ∧ (r.started = 0 → r.last = 0)
  ∧ (0 < r.last → r.started ≤ r.last)
  ∧ (0 < r.finished → r.last ≤ r.finished ∧ r.started ≤ r.finished)

/-- One operation of the fetch unit on a single request, at time `now`:
`start` is invoked by `submit` and by `request_cleanup` (asserting the
request is unfinished), `retry` by `request_cleanup` on timeout and by
`handle` on a validation failure (asserting the request was issued), and
`handle` by the worker when the request's future is ready. -/
inductive ReqStep (env : FetchEnv) (now : Nat) (r : Request) : Request → Prop
  | start (rand : Nat → Nat) (h : r.finished = 0) :
      ReqStep env now r (startOuter env rand now r).req
  | retry (rand : Nat → Nat) (h : r.finished = 0) (hs : 0 < r.started) (hl : 0 < r.last) :
      ReqStep env now r (retryReq env rand now r).req
  | handle (rand : Nat → Nat) (failed : Bool) (h : r.finished = 0) :
      ReqStep env now r (handleReq env rand now r failed).req

/-- A request state reachable from construction through fetch operations at
nondecreasing times. -/
inductive ReqTrace (env : FetchEnv) : Nat → Request → Prop
  | init (room_id event_id : String) (promise : Nat) :
      ReqTrace env 0 (mkRequest room_id event_id promise)
  | step (t now : Nat) (r r' : Request) (htr : ReqTrace env t r) (hle : t ≤ now)
      (hstep : ReqStep env now r r') : ReqTrace env now r'

def c9env : FetchEnv :=
  { originsOf := fun _ => [], my_host := fun _ => false, errmsg := fun _ => false,
    issueOk := fun _ => false }

/-- The state of a request submitted at time 5 for a room with no origins:
origin selection throws `M_NOT_FOUND` before any issuance, so `start`
latches the error and finishes with `started = finished = 5`, `last = 0`. -/
def c9req : Request := (startOuter c9env (fun _ => 0) 5 (mkRequest "!room" "$noorigins" 3)).req

/-- Strict sortedness of the `requests` set by its `operator<`
(`a.event_id < b.event_id`): the `std::set` representation invariant, which
entails at most one request per `event_id`. -/
def RequestsSorted (l : List Request) : Prop :=
  l.Pairwise (fun a b => a.event_id < b.event_id)

def c1env : FetchEnv :=
  { originsOf := fun _ => ["o1.example"], my_host := fun _ => false,
    errmsg := fun _ => false, issueOk := fun _ => true }

/-! ## Theorems -/

/-! ### Registry lemmas -/

theorem seqminLt_iff (a b : Eval) :
    seqminLt a b = true ↔ a.sequence ≠ 0 ∧ (b.sequence = 0 ∨ a.sequence < b.sequence) := by
  simp only [seqminLt, beq_iff_eq]
  by_cases h1 : a.sequence = 0
  · simp [h1]
  · by_cases h2 : b.sequence = 0
    · simp [h1, h2]
    · simp [h1, h2]

theorem minFold_spec (xs : List Eval) (init : Eval) :
    (xs.foldl (fun best y => if seqminLt y best then y else best) init = init
      ∨ xs.foldl (fun best y => if seqminLt y best then y else best) init ∈ xs)
    ∧ (∀ e, (e = init ∨ e ∈ xs) → 0 < e.sequence →
        0 < (xs.foldl (fun best y => if seqminLt y best then y else best) init).sequence
        ∧ (xs.foldl (fun best y => if seqminLt y best then y else best) init).sequence
            ≤ e.sequence) := by
  induction xs generalizing init with
  | nil =>
    refine ⟨Or.inl rfl, ?_⟩
    rintro e (rfl | h) hpos
    · exact ⟨hpos, le_refl _⟩
    · cases h
  | cons y ys ih =>
    simp only [List.foldl_cons]
    have step : ∀ e, (e = init ∨ e = y) → 0 < e.sequence →
        0 < (if seqminLt y init then y else init).sequence
        ∧ (if seqminLt y init then y else init).sequence ≤ e.sequence := by
      intro e he hpos
      by_cases h : seqminLt y init = true
      · rw [if_pos h]
        rw [seqminLt_iff] at h
        obtain ⟨h1, h2⟩ := h
        rcases he with rfl | rfl
        · rcases h2 with h2 | h2 <;> omega
        · omega
      · rw [if_neg h]
        have h' : ¬(y.sequence ≠ 0 ∧ (init.sequence = 0 ∨ y.sequence < init.sequence)) := by
          rw [← seqminLt_iff]; exact h
        push_neg at h'
        rcases he with rfl | rfl
        · exact ⟨hpos, le_refl _⟩
        · obtain ⟨ha, hb⟩ := h' (by omega)
          exact ⟨Nat.pos_of_ne_zero ha, by omega⟩
    obtain ⟨hmem, hmin⟩ := ih (if seqminLt y init then y else init)
    constructor
    · rcases hmem with h | h
      · by_cases hy : seqminLt y init = true
        · right
          rw [if_pos hy] at h ⊢
          rw [h]
          exact List.mem_cons_self y ys
        · left
          rw [if_neg hy] at h ⊢
          exact h
      · right; exact List.mem_cons_of_mem y h
    · rintro e he hpos
      rcases he with rfl | he
      · obtain ⟨h1, h2⟩ := step e (Or.inl rfl) hpos
        obtain ⟨h3, h4⟩ := hmin _ (Or.inl rfl) h1
        exact ⟨h3, le_trans h4 h2⟩
      · rcases List.mem_cons.mp he with rfl | he
        · obtain ⟨h1, h2⟩ := step e (Or.inr rfl) hpos
          obtain ⟨h3, h4⟩ := hmin _ (Or.inl rfl) h1
          exact ⟨h3, le_trans h4 h2⟩
        · exact hmin e (Or.inr he) hpos

theorem maxFold_spec (xs : List Eval) (init : Eval) :
    (xs.foldl (fun best y => if seqmaxLt best y then y else best) init = init
      ∨ xs.foldl (fun best y => if seqmaxLt best y then y else best) init ∈ xs)
    ∧ (∀ e, (e = init ∨ e ∈ xs) →
        e.sequence ≤ (xs.foldl (fun best y => if seqmaxLt best y then y else best) init).sequence) := by
  induction xs generalizing init with
  | nil =>
    refine ⟨Or.inl rfl, ?_⟩
    rintro e (rfl | h)
    · exact le_refl _
    · cases h
  | cons y ys ih =>
    simp only [List.foldl_cons]
    have step : ∀ e, (e = init ∨ e = y) →
        e.sequence ≤ (if seqmaxLt init y then y else init).sequence := by
      intro e he
      by_cases h : seqmaxLt init y = true
      · rw [if_pos h]
        simp only [seqmaxLt, decide_eq_true_eq] at h
        rcases he with rfl | rfl <;> omega
      · rw [if_neg h]
        simp only [seqmaxLt, decide_eq_true_eq] at h
        rcases he with rfl | rfl <;> omega
    obtain ⟨hmem, hmax⟩ := ih (if seqmaxLt init y then y else init)
    constructor
    · rcases hmem with h | h
      · by_cases hy : seqmaxLt init y = true
        · right
          rw [if_pos hy] at h ⊢
          rw [h]
          exact List.mem_cons_self y ys
        · left
          rw [if_neg hy] at h ⊢
          exact h
      · right; exact List.mem_cons_of_mem y h
    · rintro e he
      rcases he with rfl | he
      · exact le_trans (step e (Or.inl rfl)) (hmax _ (Or.inl rfl))
      · rcases List.mem_cons.mp he with rfl | he
        · exact le_trans (step e (Or.inr rfl)) (hmax _ (Or.inl rfl))
        · exact hmax e (Or.inr he)

/-- C6 — `seqmin()` returns the live Eval with the smallest sequence
among those with `sequence > 0` and returns none when no live Eval has a
positive sequence (zero-sequence Evals are excluded from the minimum);
`seqmax()` returns the live Eval with the largest `sequence > 0` and
returns none when no live Eval has a positive sequence. -/
theorem seqmin_seqmax_spec (l : List Eval) :
    (seqmin l = none ↔ ∀ e ∈ l, e.sequence = 0)
    ∧ (∀ e, seqmin l = some e →
        e ∈ l ∧ 0 < e.sequence ∧ ∀ f ∈ l, 0 < f.sequence → e.sequence ≤ f.sequence)
    ∧ (seqmax l = none ↔ ∀ e ∈ l, e.sequence = 0)
    ∧ (∀ e, seqmax l = some e →
        e ∈ l ∧ 0 < e.sequence ∧ ∀ f ∈ l, f.sequence ≤ e.sequence) := by
  cases l with
  | nil =>
    refine ⟨?_, ?_, ?_, ?_⟩ <;> simp [seqmin, seqmax, min_element, max_element]
  | cons x xs =>
    obtain ⟨hmem, hmin⟩ := minFold_spec xs x
    obtain ⟨hmem', hmax⟩ := maxFold_spec xs x
    set b := xs.foldl (fun best y => if seqminLt y best then y else best) x with hb
    set c := xs.foldl (fun best y => if seqmaxLt best y then y else best) x with hc
    have hbl : b ∈ x :: xs := by
      rcases hmem with h | h
      · exact h ▸ List.mem_cons_self x xs
      · exact List.mem_cons_of_mem x h
    have hcl : c ∈ x :: xs := by
      rcases hmem' with h | h
      · exact h ▸ List.mem_cons_self x xs
      · exact List.mem_cons_of_mem x h
    have hminl : ∀ e ∈ x :: xs, 0 < e.sequence → 0 < b.sequence ∧ b.sequence ≤ e.sequence := by
      intro e he hpos
      rcases List.mem_cons.mp he with rfl | he
      · exact hmin e (Or.inl rfl) hpos
      · exact hmin e (Or.inr he) hpos
    have hmaxl : ∀ e ∈ x :: xs, e.sequence ≤ c.sequence := by
      intro e he
      rcases List.mem_cons.mp he with rfl | he
      · exact hmax e (Or.inl rfl)
      · exact hmax e (Or.inr he)
    have hsmin : seqmin (x :: xs) = if b.sequence == 0 then none else some b := by
      simp [seqmin, min_element, hb]
    have hsmax : seqmax (x :: xs) = if c.sequence == 0 then none else some c := by
      simp [seqmax, max_element, hc]
    refine ⟨?_, ?_, ?_, ?_⟩
    · rw [hsmin]
      constructor
      · intro h e he
        by_cases hbz : b.sequence = 0
        · by_contra hne
          have := (hminl e he (Nat.pos_of_ne_zero hne)).1
          omega
        · simp [hbz] at h
      · intro h
        have : b.sequence = 0 := h b hbl
        simp [this]
    · intro e h
      rw [hsmin] at h
      by_cases hbz : b.sequence = 0
      · simp [hbz] at h
      · simp [hbz] at h
        subst h
        exact ⟨hbl, Nat.pos_of_ne_zero hbz, fun f hf hp => (hminl f hf hp).2⟩
    · rw [hsmax]
      constructor
      · intro h e he
        by_cases hcz : c.sequence = 0
        · have := hmaxl e he; omega
        · simp [hcz] at h
      · intro h
        have : c.sequence = 0 := h c hcl
        simp [this]
    · intro e h
      rw [hsmax] at h
      by_cases hcz : c.sequence = 0
      · simp [hcz] at h
      · simp [hcz] at h
        subst h
        exact ⟨hcl, Nat.pos_of_ne_zero hcz, hmaxl⟩

/-- Witness for C6: at the concrete registry `[A(seq 3), B(seq 0), C(seq 2)]`,
`seqmin` returns `C` and the theorem's conclusions hold for it. -/
theorem seqmin_seqmax_spec_witness :
    seqEvalC ∈ [seqEvalA, seqEvalB, seqEvalC]
    ∧ 0 < seqEvalC.sequence
    ∧ ∀ f ∈ [seqEvalA, seqEvalB, seqEvalC], 0 < f.sequence → seqEvalC.sequence ≤ f.sequence :=
  (seqmin_seqmax_spec [seqEvalA, seqEvalB, seqEvalC]).2.1 seqEvalC (by decide)

/-- C7 counterexample — the claim's "matches iff the disjunction (a) ∨
(b) ∨ (c) holds" is false: for an Eval whose in-flight body has id `$A`
while its shortcut field is `$B`, `find "$B"` returns null although
disjunct (c) holds (the code's chain never consults the shortcut field when
a body is present). -/
theorem find_disjunction_counterexample :
    ¬ ((find [chainEval] "$B").isSome ↔ ∃ e ∈ [chainEval], specMatch e "$B" = true) := by
  decide

/-- C7 (amended) — `find(event_id)` returns a non-null Eval iff some
live Eval matches the prioritized check (the in-flight body's id when a
body is present; otherwise the injection payload's `event_id` field when an
injection is present; otherwise the shortcut field), and any Eval returned
is a member of the list satisfying that check. -/
theorem find_spec (l : List Eval) (eid : String) :
    ((find l eid).isSome ↔ ∃ e ∈ l, evalMatch e eid)
    ∧ (∀ e, find l eid = some e → e ∈ l ∧ evalMatch e eid = true) := by
  constructor
  · simp only [find]
    exact List.find?_isSome
  · intro e h
    simp only [find] at h
    have hm := List.mem_of_find?_eq_some h
    have hp := List.find?_some h
    exact ⟨hm, hp⟩

/-- Witness for the amended C7 at a concrete registry and event id. -/
theorem find_spec_witness :
    chainEval ∈ [chainEval] ∧ evalMatch chainEval "$A" = true :=
  (find_spec [chainEval] "$A").2 chainEval (by decide)

/-- C10 — `eval::get(event_id)` throws `std::out_of_range` exactly when
`find(event_id)` returns null; otherwise it returns the very Eval that
`find` returns; and in both cases the registry is left unchanged. -/
theorem get_spec (l : List Eval) (eid : String) :
    ((get l eid).1.isOk = (find l eid).isSome)
    ∧ ((get l eid).1.toOption = find l eid)
    ∧ ((get l eid).2 = l) := by
  cases h : find l eid <;> simp [get, h, Except.isOk, Except.toBool, Except.toOption]

/-! ### Parent/child helper lemmas -/

theorem findParentFold_sound (s : List EvalNode) (selfId c : Nat) (acc : Option EvalNode)
    (p : EvalNode)
    (h : s.foldl
        (fun ret e =>
          if e.ctx == c then
            if e.id != selfId && (match ret with | none => true | some r => r.id < e.id)
            then some e
            else ret
          else ret) acc = some p) :
    acc = some p ∨ (p ∈ s ∧ p.ctx = c ∧ p.id ≠ selfId) := by
  induction s generalizing acc with
  | nil => exact Or.inl h
  | cons e es ih =>
    simp only [List.foldl_cons] at h
    rcases ih _ h with hacc | hmem
    · split at hacc
      · rename_i hc
        split at hacc
        · rename_i hcond
          obtain ⟨hid, _⟩ := Bool.and_eq_true_iff.mp hcond
          have hep : e = p := Option.some.inj hacc
          subst hep
          right
          exact ⟨List.mem_cons_self e es, by simpa using hc, by simpa using hid⟩
        · exact Or.inl hacc
      · exact Or.inl hacc
    · exact Or.inr ⟨List.mem_cons_of_mem e hmem.1, hmem.2⟩

theorem find_parent_sound (s : List EvalNode) (selfId c : Nat) (p : EvalNode)
    (h : find_parent s selfId c = some p) :
    p ∈ s ∧ p.ctx = c ∧ p.id ≠ selfId := by
  rcases findParentFold_sound s selfId c none p h with hacc | hmem
  · cases hacc
  · exact hmem

theorem setChild_ids (s : List EvalNode) (pid : Nat) (c : Option Nat) :
    (setChild s pid c).map EvalNode.id = s.map EvalNode.id := by
  simp only [setChild, List.map_map]
  refine List.map_congr_left ?_
  intro e _
  simp only [Function.comp_apply]
  split <;> rfl

theorem mem_setChild (s : List EvalNode) (pid : Nat) (c : Option Nat) (x : EvalNode) :
    x ∈ setChild s pid c ↔
      ∃ e ∈ s, x = if e.id == pid then { e with child := c } else e := by
  simp only [setChild, List.mem_map]
  constructor
  · rintro ⟨e, he, rfl⟩; exact ⟨e, he, rfl⟩
  · rintro ⟨e, he, rfl⟩; exact ⟨e, he, rfl⟩

theorem mem_setChild_of_mem (s : List EvalNode) (pid : Nat) (c : Option Nat) (e : EvalNode)
    (he : e ∈ s) :
    (if e.id == pid then { e with child := c } else e) ∈ setChild s pid c :=
  List.mem_map.mpr ⟨e, he, rfl⟩

theorem id_inj (s : List EvalNode) (hd : idsNodup s) (x : EvalNode) (hx : x ∈ s)
    (y : EvalNode) (hy : y ∈ s) (h : x.id = y.id) : x = y :=
  List.inj_on_of_nodup_map hd hx hy h

theorem evalCtor_eq_none (s : List EvalNode) (i c : Nat)
    (h : find_parent (s ++ [⟨i, c, none, none⟩]) i c = none) :
    evalCtor s i c = s ++ [⟨i, c, none, none⟩] := by
  simp [evalCtor, h]

theorem evalCtor_eq_some (s : List EvalNode) (i c : Nat) (p : EvalNode)
    (h : find_parent (s ++ [⟨i, c, none, none⟩]) i c = some p) :
    evalCtor s i c = setChild s p.id (some i) ++ [⟨i, c, some p.id, none⟩] := by
  simp [evalCtor, h]

theorem evalInv_ctor (s : List EvalNode) (i c : Nat)
    (fresh : ∀ e ∈ s, e.id ≠ i)
    (noChild : (find_parent (s ++ [⟨i, c, none, none⟩]) i c).all
        (fun p => p.child == none) = true)
    (inv : EvalInv s) : EvalInv (evalCtor s i c) := by
  obtain ⟨hnd, hcl, hpl⟩ := inv
  have hfresh : i ∉ s.map EvalNode.id := by
    intro hmem
    obtain ⟨e, he, hei⟩ := List.mem_map.mp hmem
    exact fresh e he hei
  have hnd' : (List.map EvalNode.id s).Nodup := hnd
  cases hfp : find_parent (s ++ [⟨i, c, none, none⟩]) i c with
  | none =>
    rw [evalCtor_eq_none s i c hfp]
    refine ⟨?_, ?_, ?_⟩
    · simp only [idsNodup, List.map_append, List.map_cons, List.map_nil]
      simp [List.nodup_append, hnd', hfresh]
    · intro e' he' cid hch
      rcases List.mem_append.mp he' with he' | he'
      · obtain ⟨f, hf, hfid, hfp'⟩ := hcl e' he' cid hch
        exact ⟨f, List.mem_append.mpr (Or.inl hf), hfid, hfp'⟩
      · simp at he'
        subst he'
        simp at hch
    · intro e' he' pid hpar
      rcases List.mem_append.mp he' with he' | he'
      · obtain ⟨f, hf, hfid, hfc⟩ := hpl e' he' pid hpar
        exact ⟨f, List.mem_append.mpr (Or.inl hf), hfid, hfc⟩
      · simp at he'
        subst he'
        simp at hpar
  | some p =>
    rw [evalCtor_eq_some s i c p hfp]
    rw [hfp] at noChild
    have hpchild : p.child = none := by simpa using noChild
    obtain ⟨hpmem, hpctx, hpid⟩ := find_parent_sound _ i c p hfp
    have hps : p ∈ s := by
      rcases List.mem_append.mp hpmem with h | h
      · exact h
      · simp at h
        subst h
        simp at hpid
    refine ⟨?_, ?_, ?_⟩
    · simp only [idsNodup, List.map_append, List.map_cons, List.map_nil, setChild_ids]
      simp [List.nodup_append, hnd', hfresh]
    · -- childLinked
      intro e' he' cid hch
      rcases List.mem_append.mp he' with he' | he'
      · obtain ⟨e, he, rfl⟩ := (mem_setChild s p.id (some i) e').mp he'
        by_cases hep : e.id == p.id
        · rw [if_pos hep] at hch ⊢
          simp only at hch
          cases hch
          refine ⟨⟨i, c, some p.id, none⟩, List.mem_append.mpr (Or.inr (by simp)), rfl, ?_⟩
          simp only
          congr 1
          have hepid : e.id = p.id := by simpa using hep
          exact hepid.symm
        · rw [if_neg hep] at hch ⊢
          obtain ⟨f, hf, hfid, hfp'⟩ := hcl e he cid hch
          refine ⟨if f.id == p.id then { f with child := some i } else f,
            List.mem_append.mpr (Or.inl (mem_setChild_of_mem s p.id (some i) f hf)), ?_, ?_⟩
          · split <;> simp [hfid]
          · split <;> simp [hfp']
      · simp at he'
        subst he'
        simp at hch
    · -- parentLinked
      intro e' he' pid hpar
      rcases List.mem_append.mp he' with he' | he'
      · obtain ⟨e, he, rfl⟩ := (mem_setChild s p.id (some i) e').mp he'
        have hpar' : e.parent = some pid := by
          by_cases hep : e.id == p.id
          · rw [if_pos hep] at hpar; exact hpar
          · rw [if_neg hep] at hpar; exact hpar
        obtain ⟨f, hf, hfid, hfc⟩ := hpl e he pid hpar'
        have hfnp : f.id ≠ p.id := by
          intro hfp2
          have : f = p := id_inj s hnd f hf p hps hfp2
          subst this
          rw [hpchild] at hfc
          cases hfc
        refine ⟨if f.id == p.id then { f with child := some i } else f,
          List.mem_append.mpr (Or.inl (mem_setChild_of_mem s p.id (some i) f hf)), ?_, ?_⟩
        · split <;> simp [hfid]
        · rw [if_neg (by simpa using hfnp)]
          rw [hfc]
          by_cases hep : e.id == p.id
          · rw [if_pos hep]
          · rw [if_neg hep]
      · simp at he'
        subst he'
        simp only at hpar
        cases hpar
        refine ⟨{ p with child := some i },
          List.mem_append.mpr (Or.inl ?_), rfl, rfl⟩
        have := mem_setChild_of_mem s p.id (some i) p hps
        rw [if_pos (by simp)] at this
        exact this

theorem evalDtor_base_eq (s : List EvalNode) (e : EvalNode) :
    evalDtor s e = (match e.parent with
      | none => s
      | some pid => setChild s pid none).filter (fun x => x.id != e.id) := rfl

theorem evalInv_dtor (s : List EvalNode) (e : EvalNode)
    (mem : e ∈ s) (noChild : e.child = none)
    (inv : EvalInv s) : EvalInv (evalDtor s e) := by
  obtain ⟨hnd, hcl, hpl⟩ := inv
  cases hpar : e.parent with
  | none =>
    have hbase : evalDtor s e = s.filter (fun x => x.id != e.id) := by
      simp [evalDtor, hpar]
    rw [hbase]
    refine ⟨?_, ?_, ?_⟩
    · exact List.Nodup.sublist (List.Sublist.map EvalNode.id (List.filter_sublist s)) hnd
    · intro e' he' cid hch
      obtain ⟨he's, hne⟩ := List.mem_filter.mp he'
      obtain ⟨f, hf, hfid, hfp'⟩ := hcl e' he's cid hch
      have hfe : f.id ≠ e.id := by
        intro hfe
        have hfeq : f = e := id_inj s hnd f hf e mem hfe
        subst hfeq
        rw [hpar] at hfp'
        cases hfp'
      exact ⟨f, List.mem_filter.mpr ⟨hf, by simpa using hfe⟩, hfid, hfp'⟩
    · intro e' he' qid hq
      obtain ⟨he's, hne⟩ := List.mem_filter.mp he'
      obtain ⟨f, hf, hfid, hfc⟩ := hpl e' he's qid hq
      have hfe : f.id ≠ e.id := by
        intro hfe
        have hfeq : f = e := id_inj s hnd f hf e mem hfe
        subst hfeq
        rw [noChild] at hfc
        cases hfc
      exact ⟨f, List.mem_filter.mpr ⟨hf, by simpa using hfe⟩, hfid, hfc⟩
  | some pid =>
    have hbase : evalDtor s e = (setChild s pid none).filter (fun x => x.id != e.id) := by
      simp [evalDtor, hpar]
    rw [hbase]
    obtain ⟨g, hg, hgid, hgc⟩ := hpl e mem pid hpar
    refine ⟨?_, ?_, ?_⟩
    · refine List.Nodup.sublist (List.Sublist.map EvalNode.id (List.filter_sublist _)) ?_
      rw [setChild_ids s pid none]
      exact hnd
    · intro e' he' cid hch
      obtain ⟨he's, hne⟩ := List.mem_filter.mp he'
      obtain ⟨x, hx, rfl⟩ := (mem_setChild s pid none e').mp he's
      by_cases hxp : (x.id == pid) = true
      · rw [if_pos hxp] at hch
        simp at hch
      · rw [if_neg hxp] at hch hne ⊢
        obtain ⟨f, hf, hfid, hfp'⟩ := hcl x hx cid hch
        have hfe : f.id ≠ e.id := by
          intro hfe
          have hfeq : f = e := id_inj s hnd f hf e mem hfe
          subst hfeq
          rw [hpar] at hfp'
          have hpx : pid = x.id := Option.some.inj hfp'
          exact hxp (beq_iff_eq.mpr hpx.symm)
        refine ⟨if f.id == pid then { f with child := none } else f,
          List.mem_filter.mpr ⟨mem_setChild_of_mem s pid none f hf, ?_⟩, ?_, ?_⟩
        · split <;> simpa using hfe
        · split <;> simp [hfid]
        · split <;> simp [hfp']
    · intro e' he' qid hq
      obtain ⟨he's, hne⟩ := List.mem_filter.mp he'
      obtain ⟨x, hx, rfl⟩ := (mem_setChild s pid none e').mp he's
      have hxid : (if x.id == pid then { x with child := none } else x).id = x.id := by
        split <;> rfl
      have hxq : x.parent = some qid := by
        by_cases hxp : (x.id == pid) = true
        · rw [if_pos hxp] at hq; exact hq
        · rw [if_neg hxp] at hq; exact hq
      have hxe : x.id ≠ e.id := by
        intro hxe
        rw [hxid] at hne
        simp [hxe] at hne
      obtain ⟨f, hf, hfid, hfc⟩ := hpl x hx qid hxq
      have hfnp : f.id ≠ pid := by
        intro hfp2
        have hfeq : f = g := id_inj s hnd f hf g hg (hfp2.trans hgid.symm)
        subst hfeq
        rw [hgc] at hfc
        exact hxe (Option.some.inj hfc).symm
      have hfe : f.id ≠ e.id := by
        intro hfe
        have hfeq : f = e := id_inj s hnd f hf e mem hfe
        subst hfeq
        rw [noChild] at hfc
        cases hfc
      refine ⟨f, List.mem_filter.mpr ⟨?_, by simpa using hfe⟩, hfid, ?_⟩
      · have himg := mem_setChild_of_mem s pid none f hf
        rw [if_neg (by simpa using hfnp)] at himg
        exact himg
      · rw [hxid]
        exact hfc

/-- C4 — at every point between operations, every live Eval `e`
satisfies `e.child == null ∨ e.child.parent == e`: the constructor
snapshots `find_parent` as parent and installs itself as that parent's
child (asserting the parent had none), the destructor requires no child
and resets its parent's child pointer, and every state reachable from the
empty registry through such constructions and destructions satisfies the
invariant. -/
theorem child_parent_invariant (s : List EvalNode) (h : EvalReachable s) :
    ∀ e ∈ s, e.child = none
      ∨ ∃ f ∈ s, e.child = some f.id ∧ f.parent = some e.id := by
  have hinv : EvalInv s := by
    induction h with
    | refl =>
      refine ⟨List.nodup_nil, ?_, ?_⟩
      · intro e he; cases he
      · intro e he; cases he
    | tail hab hr ih =>
      cases hr with
      | ctor i c fresh hnc => exact evalInv_ctor _ i c fresh hnc ih
      | dtor e mem hnc => exact evalInv_dtor _ e mem hnc ih
  intro e he
  cases hch : e.child with
  | none => exact Or.inl rfl
  | some cid =>
    obtain ⟨f, hf, hfid, hfp⟩ := hinv.2.1 e he cid hch
    exact Or.inr ⟨f, hf, by rw [hfid], hfp⟩

/-- Witness for C4: the state after constructing Eval 1 then Eval 2 on the
same task (so Eval 1 becomes Eval 2's parent) is reachable, contains the
node `⟨1, 0, none, some 2⟩`, and that node's child back-links to it. -/
theorem child_parent_invariant_witness :
    (⟨1, 0, none, some 2⟩ : EvalNode).child = none
    ∨ ∃ f ∈ evalCtor (evalCtor [] 1 0) 2 0,
        (⟨1, 0, none, some 2⟩ : EvalNode).child = some f.id
        ∧ f.parent = some (⟨1, 0, none, some 2⟩ : EvalNode).id :=
  child_parent_invariant (evalCtor (evalCtor [] 1 0) 2 0)
    (Relation.ReflTransGen.tail
      (Relation.ReflTransGen.single (EvalStep.ctor [] 1 0 (by decide) (by decide)))
      (EvalStep.ctor (evalCtor [] 1 0) 2 0 (by decide) (by decide)))
    ⟨1, 0, none, some 2⟩ (by decide)

theorem eventLt_iff (a b : BEvent) : eventLt a b = true ↔ LexLt a b := by
  simp [eventLt, LexLt, Bool.or_eq_true, Bool.and_eq_true, decide_eq_true_eq, beq_iff_eq]

theorem not_lexLt_iff (a b : BEvent) : ¬ LexLt b a ↔ LexLe a b := by
  unfold LexLt LexLe
  constructor
  · intro h
    push_neg at h
    obtain ⟨h1, h2⟩ := h
    rcases eq_or_lt_of_le h1 with heq | hlt
    · right
      refine ⟨heq, ?_⟩
      obtain ⟨h3, h4⟩ := h2 heq.symm
      rcases eq_or_lt_of_le h3 with heq2 | hlt2
      · right
        exact ⟨heq2, h4 heq2.symm⟩
      · left; exact hlt2
    · left; exact hlt
  · intro h hlt
    rcases h with h | ⟨he, h⟩ <;> rcases hlt with hl | ⟨hle, hl⟩
    · omega
    · omega
    · omega
    · rcases h with h | ⟨he2, h⟩ <;> rcases hl with hl | ⟨hle2, hl⟩
      · omega
      · omega
      · omega
      · exact absurd hl (not_lt.mpr h)

theorem eventLe_iff (a b : BEvent) : eventLe a b = true ↔ LexLe a b := by
  rw [← not_lexLt_iff, ← eventLt_iff]
  unfold eventLe
  cases h : eventLt b a <;> simp [h]

theorem lexLe_trans (a b c : BEvent) (h1 : LexLe a b) (h2 : LexLe b c) : LexLe a c := by
  unfold LexLe at *
  rcases h1 with h1 | ⟨e1, h1 | ⟨f1, g1⟩⟩ <;> rcases h2 with h2 | ⟨e2, h2 | ⟨f2, g2⟩⟩ <;>
    first
    | (left; omega)
    | (right; exact ⟨by omega, Or.inl (by omega)⟩)
    | (right; exact ⟨by omega, Or.inr ⟨by omega, le_trans g1 g2⟩⟩)

theorem lexLe_total (a b : BEvent) : LexLe a b ∨ LexLe b a := by
  unfold LexLe
  rcases lt_trichotomy a.depth b.depth with h | h | h
  · left; left; exact h
  · rcases lt_trichotomy a.origin_server_ts b.origin_server_ts with h2 | h2 | h2
    · left; right; exact ⟨h, Or.inl h2⟩
    · rcases le_total a.event_id b.event_id with h3 | h3
      · left; right; exact ⟨h, Or.inr ⟨h2, h3⟩⟩
      · right; right; exact ⟨h.symm, Or.inr ⟨h2.symm, h3⟩⟩
    · right; right; exact ⟨h.symm, Or.inl h2⟩
  · right; left; exact h

/-- C5 — with `opts.ordered == false` the processed batch is sorted
lexicographically by (depth, origin_server_ts, event_id); it is a permutation
of the first `opts.limit` input events; and an oversize batch is truncated so
that exactly `opts.limit` events are processed. -/
theorem batch_sorted_truncated (pdus : List BEvent) (limit : Nat) :
    (evalBatch pdus limit false).Pairwise LexLe
    ∧ (evalBatch pdus limit false).Perm (pdus.take limit)
    ∧ (limit < pdus.length → (evalBatch pdus limit false).length = limit) := by
  have heq : evalBatch pdus limit false = (pdus.take limit).mergeSort eventLe := by
    simp [evalBatch]
  have htrans : ∀ a b c : BEvent, eventLe a b → eventLe b c → eventLe a c := by
    intro a b c h1 h2
    exact (eventLe_iff a c).mpr (lexLe_trans a b c ((eventLe_iff a b).mp h1) ((eventLe_iff b c).mp h2))
  have htotal : ∀ a b : BEvent, eventLe a b || eventLe b a := by
    intro a b
    rcases lexLe_total a b with h | h
    · simp [(eventLe_iff a b).mpr h]
    · simp [(eventLe_iff b a).mpr h]
  refine ⟨?_, ?_, ?_⟩
  · rw [heq]
    have hs := List.sorted_mergeSort htrans htotal (pdus.take limit)
    exact hs.imp (fun hab => (eventLe_iff _ _).mp hab)
  · rw [heq]
    exact List.mergeSort_perm (pdus.take limit) eventLe
  · intro hlt
    rw [heq, (List.mergeSort_perm (pdus.take limit) eventLe).length_eq, List.length_take]
    omega

/-- Witness for C5 at a concrete oversize batch (limit 2, three events). -/
theorem batch_sorted_truncated_witness :
    (evalBatch [c5e1, c5e2, c5e3] 2 false).length = 2 :=
  (batch_sorted_truncated [c5e1, c5e2, c5e3] 2).2.2 (by decide)

theorem insertPair_mem (l : List (String × String)) (p q : String × String)
    (h : q ∈ insertPair l p) : q ∈ l ∨ q = p := by
  unfold insertPair at h
  split at h
  · exact Or.inl h
  · rcases List.mem_append.mp h with h | h
    · exact Or.inl h
    · simp at h
      exact Or.inr h

theorem keysFold_mem (cacheHas : String → String → Bool) (origin : String)
    (keys : List String) (acc : List (String × String)) (q : String × String)
    (h : q ∈ keys.foldl
        (fun acc3 key_id =>
          if !cacheHas origin key_id then insertPair acc3 (origin, key_id) else acc3)
        acc) :
    q ∈ acc ∨ (q.1 = origin ∧ cacheHas origin q.2 = false) := by
  induction keys generalizing acc with
  | nil => exact Or.inl h
  | cons k ks ih =>
    simp only [List.foldl_cons] at h
    rcases ih _ h with h' | h'
    · split at h'
      · rename_i hc
        rcases insertPair_mem _ _ _ h' with h'' | h''
        · exact Or.inl h''
        · subst h''
          right
          simpa using hc
      · exact Or.inl h'
    · exact Or.inr h'

theorem sigsFold_mem (cacheHas : String → String → Bool) (origin : String)
    (sigs : List (String × List String)) (acc : List (String × String)) (q : String × String)
    (h : q ∈ sigs.foldl
        (fun acc2 sn =>
          sn.2.foldl
            (fun acc3 key_id =>
              if !cacheHas origin key_id then insertPair acc3 (origin, key_id) else acc3)
            acc2)
        acc) :
    q ∈ acc ∨ (q.1 = origin ∧ cacheHas origin q.2 = false) := by
  induction sigs generalizing acc with
  | nil => exact Or.inl h
  | cons sn sns ih =>
    simp only [List.foldl_cons] at h
    rcases ih _ h with h' | h'
    · exact keysFold_mem cacheHas origin sn.2 acc q h'
    · exact Or.inr h'

theorem missFold_mem (cacheHas : String → String → Bool) (node_id : Option String)
    (pdus : List MEvent) (acc : List (String × String)) (q : String × String)
    (h : q ∈ pdus.foldl
        (fun acc ev =>
          let origin := originOf ev
          if node_id.isSome && node_id != some origin then acc
          else ev.signatures.foldl
            (fun acc2 sn =>
              sn.2.foldl
                (fun acc3 key_id =>
                  if !cacheHas origin key_id then insertPair acc3 (origin, key_id) else acc3)
                acc2)
            acc)
        acc) :
    q ∈ acc ∨ (cacheHas q.1 q.2 = false
      ∧ (∃ ev ∈ pdus, q.1 = originOf ev)
      ∧ (∀ n, node_id = some n → q.1 = n)) := by
  induction pdus generalizing acc with
  | nil => exact Or.inl h
  | cons ev evs ih =>
    simp only [List.foldl_cons] at h
    rcases ih _ h with h' | h'
    · split at h'
      · exact Or.inl h'
      · rename_i hguard
        rcases sigsFold_mem cacheHas (originOf ev) ev.signatures acc q h' with h'' | h''
        · exact Or.inl h''
        · right
          refine ⟨by rw [h''.1]; exact h''.2, ⟨ev, List.mem_cons_self ev evs, h''.1⟩, ?_⟩
          intro n hn
          subst hn
          simp only [Bool.and_eq_true, Option.isSome_some, bne_iff_ne, Ne,
            Option.some.injEq, not_and, not_not] at hguard
          rw [h''.1]
          exact (hguard trivial).symm
    · right
      obtain ⟨hq1, ⟨ev', hev', hq2⟩, hq3⟩ := h'
      exact ⟨hq1, ⟨ev', List.mem_cons_of_mem ev hev', hq2⟩, hq3⟩

/-- C8 — every `(server, key_id)` pair that `mfetch_keys` submits to
the batched key fetch has `server` equal to the contributing event's
responsible origin and equal to `opts.node_id` whenever that is set (so
events from other origins contribute no queries); only keys absent from
the key cache are queried; and no `m::keys::fetch` call is made when
nothing is missing. -/
theorem mfetch_keys_spec (cacheHas : String → String → Bool) (node_id : Option String)
    (pdus : List MEvent) :
    (∀ q ∈ (mfetch_keys cacheHas node_id pdus).1,
      cacheHas q.1 q.2 = false
      ∧ (∃ ev ∈ pdus, q.1 = originOf ev)
      ∧ (∀ n, node_id = some n → q.1 = n))
    ∧ ((mfetch_keys cacheHas node_id pdus).1 = [] →
      (mfetch_keys cacheHas node_id pdus).2 = false) := by
  constructor
  · intro q hq
    rcases missFold_mem cacheHas node_id pdus [] q hq with h | h
    · cases h
    · exact h
  · intro h
    simp only [mfetch_keys] at h ⊢
    rw [h]
    rfl

/-- Witness for C8 at a concrete batch: with `node_id = s1.example` and an
empty cache, the pair `(s1.example, ed25519:k1)` is queried and satisfies
all three conclusions. -/
theorem mfetch_keys_spec_witness :
    c8cache "s1.example" "ed25519:k1" = false
    ∧ (∃ ev ∈ [c8event], "s1.example" = originOf ev)
    ∧ (∀ n, some "s1.example" = some n → "s1.example" = n) :=
  (mfetch_keys_spec c8cache (some "s1.example") [c8event]).1
    ("s1.example", "ed25519:k1") (by decide)

/-- C3 — the code contradicts the claim: for a well-formed response
event signed by its responsible server `s1.example`, with that server's
key cached and the signature valid, `check_response` as written rejects
the response (its `at("server")` lookup of the literal key `"server"`
throws), while the specified behaviour accepts it.  The id and conformance
primitives are fixed to succeed so only the signature step is exercised. -/
theorem check_response_literal_server :
    check_response defaultCheckOpts (fun _ => true) (fun _ => true)
        (fun _ _ => true) (fun _ _ => true) c3event
      = Except.error "json::object::at: signatures has no such member"
    ∧ check_response_spec defaultCheckOpts (fun _ => true) (fun _ => true)
        (fun _ _ => true) (fun _ _ => true) c3event
      = Except.ok () := by
  constructor <;> rfl

theorem originsRandom_mem (origins : List String) (proffer : String → Bool) (rand : Nat)
    (o : String) (h : originsRandom origins proffer rand = some o) :
    o ∈ origins ∧ proffer o = true := by
  unfold originsRandom at h
  split at h
  · cases h
  · rename_i hne
    have hm : o ∈ origins.filter proffer := by
      cases h
      exact List.get_mem _ _ _
    exact ⟨List.mem_of_mem_filter hm, List.of_mem_filter hm⟩

theorem originsRandom_none (origins : List String) (proffer : String → Bool) (rand : Nat)
    (h : origins.filter proffer = []) : originsRandom origins proffer rand = none := by
  simp [originsRandom, h]

theorem proffer_true (env : FetchEnv) (r : Request) (o : String)
    (h : fetchProffer env r o = true) :
    env.my_host o = false ∧ r.attempted.contains o = false ∧ env.errmsg o = false := by
  unfold fetchProffer at h
  split at h
  · cases h
  · split at h
    · cases h
    · split at h
      · cases h
      · rename_i h1 h2 h3
        exact ⟨Bool.eq_false_iff.mpr h1, Bool.eq_false_iff.mpr h2, Bool.eq_false_iff.mpr h3⟩

theorem select_ok_facts (env : FetchEnv) (rand : Nat) (r r' : Request)
    (h : select_random_origin env rand r = Except.ok r') :
    r'.origin ∈ env.originsOf r.room_id
    ∧ env.my_host r'.origin = false
    ∧ r.attempted.contains r'.origin = false
    ∧ env.errmsg r'.origin = false
    ∧ r'.origin ∈ r'.attempted := by
  unfold select_random_origin at h
  split at h
  · cases h
  · rename_i o ho
    split at h
    · cases h
    · rename_i hno
      cases h
      obtain ⟨hom, hpf⟩ := originsRandom_mem _ _ _ _ ho
      obtain ⟨h1, h2, h3⟩ := proffer_true env r o hpf
      refine ⟨hom, h1, h2, h3, ?_⟩
      simp only [select_origin, h2]
      simp

theorem select_exhausted (env : FetchEnv) (rand : Nat) (r : Request)
    (h : ∀ o ∈ env.originsOf r.room_id,
        env.my_host o = true ∨ r.attempted.contains o = true ∨ env.errmsg o = true) :
    select_random_origin env rand r
      = Except.error (FetchErr.NOT_FOUND, { r with origin := "" }) := by
  have hfil : (env.originsOf r.room_id).filter (fetchProffer env r) = [] := by
    rw [List.filter_eq_nil_iff]
    intro o ho hcon
    obtain ⟨h1, h2, h3⟩ := proffer_true env r o hcon
    rcases h o ho with hh | hh | hh <;> simp_all
  unfold select_random_origin
  rw [originsRandom_none _ _ rand hfil]

theorem start1_fields (env : FetchEnv) (now : Nat) (r : Request) :
    ((start1 env now r).2.room_id = r.room_id)
    ∧ ((start1 env now r).2.event_id = r.event_id)
    ∧ ((start1 env now r).2.promise = r.promise)
    ∧ ((start1 env now r).2.origin = r.origin)
    ∧ ((start1 env now r).2.attempted = r.attempted)
    ∧ ((start1 env now r).2.finished = r.finished)
    ∧ ((start1 env now r).2.eptr = r.eptr)
    ∧ ((start1 env now r).2.last = now)
    ∧ ((start1 env now r).2.started = if r.started = 0 then now else r.started) := by
  unfold start1
  split <;> simp

theorem startLoop_issued (env : FetchEnv) (rand : Nat → Nat) (now : Nat) :
    ∀ fuel k (r : Request) (acc : List Request),
      (r.origin = "" ∨ r.origin ∈ r.attempted) →
      (∀ q ∈ acc, q.origin ∈ q.attempted) →
      ∀ q ∈ (startLoop env rand now fuel k r acc).issued, q.origin ∈ q.attempted := by
  intro fuel
  induction fuel with
  | zero =>
    intro k r acc hr hacc q hq
    exact hacc q hq
  | succ fuel ih =>
    intro k r acc hr hacc q hq
    rw [startLoop] at hq
    split at hq
    · exact hacc q hq
    · rename_i hor
      have hrmem : r.origin ∈ r.attempted := by
        rcases hr with hr | hr
        · exact absurd (by simp [hr]) hor
        · exact hr
      have h1 : ((start1 env now r).2.origin = r.origin)
          ∧ ((start1 env now r).2.attempted = r.attempted) :=
        ⟨(start1_fields env now r).2.2.2.1, (start1_fields env now r).2.2.2.2.1⟩
      have hacc1 : ∀ q ∈ acc ++ [(start1 env now r).2], q.origin ∈ q.attempted := by
        intro q hq
        rcases List.mem_append.mp hq with hq | hq
        · exact hacc q hq
        · simp at hq
          subst hq
          rw [h1.1, h1.2]
          exact hrmem
      split at hq
      · rename_i r1 heq
        have hr1 : r1 = (start1 env now r).2 := congrArg Prod.snd heq |>.symm
        subst hr1
        exact hacc1 q hq
      · rename_i r1 heq
        have hr1 : r1 = (start1 env now r).2 := congrArg Prod.snd heq |>.symm
        subst hr1
        split at hq
        · rename_i r2 hsel
          refine ih (k + 1) r2 _ ?_ hacc1 q hq
          right
          have := select_ok_facts env (rand k) (start1 env now r).2 r2 hsel
          exact this.2.2.2.2
        · exact hacc1 q hq

theorem startAfterStamp_issued (env : FetchEnv) (rand : Nat → Nat) (now : Nat)
    (r0 : Request) (hr : r0.origin = "" ∨ r0.origin ∈ r0.attempted) :
    ∀ q ∈ (startAfterStamp env rand now r0).issued, q.origin ∈ q.attempted := by
  unfold startAfterStamp
  split
  · split
    · intro q hq
      simp at hq
    · rename_i r1 hsel
      refine startLoop_issued env rand now _ 1 r1 [] ?_ (by intro q hq; cases hq)
      right
      exact (select_ok_facts env (rand 0) _ r1 hsel).2.2.2.2
  · exact startLoop_issued env rand now _ 0 r0 [] hr (by intro q hq; cases hq)

theorem startOuter_issued (env : FetchEnv) (rand : Nat → Nat) (now : Nat) (r : Request)
    (hr : r.origin = "" ∨ r.origin ∈ r.attempted) :
    ∀ q ∈ (startOuter env rand now r).issued, q.origin ∈ q.attempted := by
  unfold startOuter
  refine startAfterStamp_issued env rand now _ ?_
  split <;> simpa using hr

/-- C2 — `select_random_origin` only ever selects an origin of the
request's room satisfying all three proffer predicates (not the local
server, not already attempted, not latched with a server-pool error); the
selected origin is in `attempted` already at selection time, so every
issuance `start(request, opts)` performed by `start(request)` sees
`origin ∈ attempted`; and when no origin satisfies the predicates the call
fails with `M_NOT_FOUND`. -/
theorem select_random_origin_spec (env : FetchEnv) (r : Request) :
    (∀ rand r', select_random_origin env rand r = Except.ok r' →
      r'.origin ∈ env.originsOf r.room_id
      ∧ env.my_host r'.origin = false
      ∧ r.attempted.contains r'.origin = false
      ∧ env.errmsg r'.origin = false
      ∧ r'.origin ∈ r'.attempted)
    ∧ (∀ rand, (∀ o ∈ env.originsOf r.room_id,
        env.my_host o = true ∨ r.attempted.contains o = true ∨ env.errmsg o = true) →
      select_random_origin env rand r
        = Except.error (FetchErr.NOT_FOUND, { r with origin := "" }))
    ∧ (∀ rand now, (r.origin = "" ∨ r.origin ∈ r.attempted) →
      ∀ q ∈ (startOuter env rand now r).issued, q.origin ∈ q.attempted) :=
  ⟨fun rand r' h => select_ok_facts env rand r r' h,
    fun rand h => select_exhausted env rand r h,
    fun rand now hr => startOuter_issued env rand now r hr⟩

/-- Witness for C2: in a room with origins `{o1, o2}` where `o1` is latched
with a server-pool error, selection picks `o2`, which satisfies all three
predicates and is already in `attempted`. -/
theorem select_random_origin_spec_witness :
    c2sel.origin ∈ c2env.originsOf c2req.room_id
    ∧ c2env.my_host c2sel.origin = false
    ∧ c2req.attempted.contains c2sel.origin = false
    ∧ c2env.errmsg c2sel.origin = false
    ∧ c2sel.origin ∈ c2sel.attempted :=
  (select_random_origin_spec c2env c2req).1 0 c2sel (by rfl)

theorem select_pres (env : FetchEnv) (rand : Nat) (r : Request) :
    (∀ r', select_random_origin env rand r = Except.ok r' →
      r'.room_id = r.room_id ∧ r'.event_id = r.event_id ∧ r'.promise = r.promise
      ∧ r'.started = r.started ∧ r'.last = r.last ∧ r'.finished = r.finished
      ∧ r'.eptr = r.eptr)
    ∧ (∀ p rerr, select_random_origin env rand r = Except.error (p, rerr) →
      rerr.room_id = r.room_id ∧ rerr.event_id = r.event_id ∧ rerr.promise = r.promise
      ∧ rerr.started = r.started ∧ rerr.last = r.last ∧ rerr.finished = r.finished
      ∧ rerr.eptr = r.eptr) := by
  constructor
  · intro r' h
    unfold select_random_origin at h
    split at h
    · cases h
    · split at h
      · cases h
      · cases h
        simp [select_origin]
  · intro p rerr h
    unfold select_random_origin at h
    split at h
    · cases h
      simp
    · split at h
      · cases h
        simp [select_origin]
      · cases h

theorem startLoop_time (env : FetchEnv) (rand : Nat → Nat) (now : Nat) :
    ∀ fuel k (r : Request) (acc : List Request), LoopInv now r →
      TimeInv now (startLoop env rand now fuel k r acc).req := by
  intro fuel
  induction fuel with
  | zero =>
    intro k r acc h
    obtain ⟨h1, h2, h3, h4, h5⟩ := h
    rw [startLoop]
    dsimp only
    exact ⟨h1, h2, by omega, h4, h5, by omega⟩
  | succ fuel ih =>
    intro k r acc h
    obtain ⟨h1, h2, h3, h4, h5⟩ := h
    rw [startLoop]
    split
    · exact ⟨h1, h2, le_refl now, h4, h5, fun _ => ⟨h2, h1⟩⟩
    · rename_i hor
      have hL1 : LoopInv now (start1 env now r).2 := by
        obtain ⟨-, -, -, -, -, hfin, -, hlast, hstart⟩ := start1_fields env now r
        refine ⟨?_, ?_, ?_, ?_, ?_⟩
        · rw [hstart]; split <;> omega
        · rw [hlast]
        · rw [hfin]; exact h3
        · intro h0
          rw [hstart] at h0
          rw [hlast]
          split at h0
          · exact h0
          · rename_i hns; exact absurd h0 hns
        · intro h0
          rw [hstart, hlast]
          split <;> omega
      split
      · rename_i r1 heq
        have hr1 : r1 = (start1 env now r).2 := (congrArg Prod.snd heq).symm
        subst hr1
        obtain ⟨g1, g2, g3, g4, g5⟩ := hL1
        dsimp only
        exact ⟨g1, g2, by omega, g4, g5, by omega⟩
      · rename_i r1 heq
        have hr1 : r1 = (start1 env now r).2 := (congrArg Prod.snd heq).symm
        subst hr1
        split
        · rename_i r2 hsel
          refine ih (k + 1) r2 _ ?_
          obtain ⟨p1, p2, p3, p4, p5, p6, p7⟩ := (select_pres env (rand k) _).1 r2 hsel
          obtain ⟨g1, g2, g3, g4, g5⟩ := hL1
          exact ⟨by omega, by omega, by omega, by omega, by omega⟩
        · rename_i fst rerr hsel
          obtain ⟨q1, q2, q3, q4, q5, q6, q7⟩ := (select_pres env (rand k) _).2 fst rerr hsel
          obtain ⟨g1, g2, g3, g4, g5⟩ := hL1
          refine ⟨by simpa [finishReq] using (by omega : rerr.started ≤ now), ?_, ?_, ?_, ?_, ?_⟩
          · simpa [finishReq] using (by omega : rerr.last ≤ now)
          · simp [finishReq]
          · intro h0
            simp only [finishReq] at h0 ⊢
            omega
          · intro h0
            simp only [finishReq] at h0 ⊢
            omega
          · intro h0
            simp only [finishReq]
            omega

theorem startAfterStamp_time (env : FetchEnv) (rand : Nat → Nat) (now : Nat) (r0 : Request)
    (h : LoopInv now r0) : TimeInv now (startAfterStamp env rand now r0).req := by
  unfold startAfterStamp
  obtain ⟨h1, h2, h3, h4, h5⟩ := h
  split
  · split
    · rename_i fst rerr hsel
      obtain ⟨q1, q2, q3, q4, q5, q6, q7⟩ := (select_pres env (rand 0) r0).2 fst rerr hsel
      refine ⟨?_, ?_, ?_, ?_, ?_, ?_⟩
      · simpa [finishReq] using (by omega : rerr.started ≤ now)
      · simpa [finishReq] using (by omega : rerr.last ≤ now)
      · simp [finishReq]
      · intro h0
        simp only [finishReq] at h0 ⊢
        omega
      · intro h0
        simp only [finishReq] at h0 ⊢
        omega
      · intro h0
        simp only [finishReq]
        omega
    · rename_i r1 hsel
      refine startLoop_time env rand now _ 1 r1 [] ?_
      obtain ⟨p1, p2, p3, p4, p5, p6, p7⟩ := (select_pres env (rand 0) r0).1 r1 hsel
      exact ⟨by omega, by omega, by omega, by omega, by omega⟩
  · exact startLoop_time env rand now _ 0 r0 [] ⟨h1, h2, h3, h4, h5⟩

theorem startOuter_time (env : FetchEnv) (rand : Nat → Nat) (now : Nat) (r : Request)
    (h1 : r.started ≤ now) (h2 : r.last ≤ now) (h3 : r.finished = 0)
    (h4 : r.started = 0 → r.last = 0) (h5 : 0 < r.last → r.started ≤ r.last) :
    TimeInv now (startOuter env rand now r).req := by
  unfold startOuter
  refine startAfterStamp_time env rand now _ ?_
  split
  · rename_i hz
    refine ⟨le_refl now, by simpa using h2, by simpa using h3, ?_, ?_⟩
    · intro h0
      have := h4 hz
      simpa using this
    · intro h0
      simp only at h0 ⊢
      have := h4 hz
      omega
  · exact ⟨h1, h2, h3, h4, h5⟩

theorem handleReq_time (env : FetchEnv) (rand : Nat → Nat) (now : Nat) (r : Request)
    (failed : Bool) (i1 : r.started ≤ now) (i2 : r.last ≤ now) (h0 : r.finished = 0)
    (i4 : r.started = 0 → r.last = 0) (i5 : 0 < r.last → r.started ≤ r.last) :
    TimeInv now (handleReq env rand now r failed).req := by
  unfold handleReq
  set rf := if failed then { r with eptr := true } else r with hrf
  have hfs : rf.started = r.started := by rw [hrf]; cases failed <;> simp
  have hfl : rf.last = r.last := by rw [hrf]; cases failed <;> simp
  have hff : rf.finished = r.finished := by rw [hrf]; cases failed <;> simp
  split
  · -- finish path
    dsimp only
    refine ⟨?_, ?_, ?_, ?_, ?_, ?_⟩ <;> simp only [finishReq, hfs, hfl, hff]
    · omega
    · omega
    · exact le_refl now
    · exact i4
    · exact i5
    · intro hx
      omega
  · -- retry path
    unfold retryReq
    refine startOuter_time env rand now _ ?_ ?_ ?_ ?_ ?_ <;>
      dsimp only <;> simp only [hfs, hfl, hff]
    · exact i1
    · exact i2
    · exact h0
    · exact i4
    · exact i5

theorem reqTrace_time (env : FetchEnv) (now : Nat) (r : Request)
    (h : ReqTrace env now r) : TimeInv now r := by
  induction h with
  | init room_id event_id promise =>
    exact ⟨le_refl 0, le_refl 0, le_refl 0, fun _ => rfl, by simp [mkRequest], by simp [mkRequest]⟩
  | step t now r r' htr hle hstep ih =>
    obtain ⟨i1, i2, i3, i4, i5, i6⟩ := ih
    cases hstep with
    | start rand h0 =>
      exact startOuter_time env rand now r (by omega) (by omega) h0 i4 i5
    | retry rand h0 hs hl =>
      unfold retryReq
      refine startOuter_time env rand now _ ?_ ?_ ?_ ?_ ?_ <;> dsimp only
      · omega
      · omega
      · exact h0
      · exact i4
      · exact i5
    | handle rand failed h0 =>
      exact handleReq_time env rand now r failed (by omega) (by omega) h0 i4 i5

/-- C9 (amended) — for every request that reaches the finished state
through the start/retry/finish operations: `last ≤ finished` and
`started ≤ finished` always, and `started ≤ last` whenever the request was
issued at least once (`last > 0`); a request whose origin set is exhausted
before any issuance finishes with `last = 0 < started`. -/
theorem fetch_timestamps (env : FetchEnv) (now : Nat) (r : Request)
    (htr : ReqTrace env now r) (hfin : 0 < r.finished) :
    r.last ≤ r.finished ∧ r.started ≤ r.finished ∧ (0 < r.last → r.started ≤ r.last) := by
  obtain ⟨-, -, -, -, h5, h6⟩ := reqTrace_time env now r htr
  exact ⟨(h6 hfin).1, (h6 hfin).2, h5⟩

/-- C9 counterexample — the claim `started ≤ last ∧ last ≤ finished`
for every finished request is false as stated: `c9req` is reachable through
the fetch operations, is finished, and has `started = 5 > 0 = last`. -/
theorem fetch_timestamps_counterexample :
    ReqTrace c9env 5 c9req ∧ 0 < c9req.finished ∧ ¬(c9req.started ≤ c9req.last) :=
  ⟨ReqTrace.step 0 5 (mkRequest "!room" "$noorigins" 3) c9req
      (ReqTrace.init "!room" "$noorigins" 3) (by omega)
      (ReqStep.start (fun _ => 0) rfl),
    by decide, by decide⟩

/-- Witness for the amended C9 at the concrete finished request `c9req`. -/
theorem fetch_timestamps_witness :
    c9req.last ≤ c9req.finished ∧ c9req.started ≤ c9req.finished
    ∧ (0 < c9req.last → c9req.started ≤ c9req.last) :=
  fetch_timestamps c9env 5 c9req
    (ReqTrace.step 0 5 (mkRequest "!room" "$noorigins" 3) c9req
      (ReqTrace.init "!room" "$noorigins" 3) (by omega)
      (ReqStep.start (fun _ => 0) rfl))
    (by decide)

theorem lowerBound_mem (l : List Request) (k : String) (x : Request)
    (h : lowerBound l k = some x) : x ∈ l := by
  induction l with
  | nil => cases h
  | cons y ys ih =>
    rw [lowerBound] at h
    split at h
    · exact List.mem_cons_of_mem y (ih h)
    · cases h
      exact List.mem_cons_self _ _

theorem submitDup_iff (l : List Request) (k : String) (hs : RequestsSorted l) :
    submitDup l k = true ↔ ∃ x ∈ l, x.event_id = k := by
  induction l with
  | nil => simp [submitDup, lowerBound]
  | cons y ys ih =>
    simp only [submitDup, lowerBound]
    by_cases hy : y.event_id < k
    · rw [if_pos hy]
      change submitDup ys k = true ↔ _
      rw [ih ((List.pairwise_cons.mp hs).2)]
      constructor
      · rintro ⟨x, hx, he⟩
        exact ⟨x, List.mem_cons_of_mem y hx, he⟩
      · rintro ⟨x, hx, he⟩
        rcases List.mem_cons.mp hx with rfl | hx
        · rw [he] at hy
          exact absurd hy (lt_irrefl k)
        · exact ⟨x, hx, he⟩
    · rw [if_neg hy]
      change (y.event_id == k) = true ↔ _
      constructor
      · intro h
        exact ⟨y, List.mem_cons_self y ys, by simpa using h⟩
      · rintro ⟨x, hx, he⟩
        rcases List.mem_cons.mp hx with rfl | hx
        · simpa using he
        · have hlt := (List.pairwise_cons.mp hs).1 x hx
          rw [he] at hlt
          exact absurd hlt hy

theorem insertReq_perm (l : List Request) (r : Request) :
    (insertReq l r).Perm (r :: l) := by
  induction l with
  | nil => exact List.Perm.refl _
  | cons x xs ih =>
    rw [insertReq]
    split
    · exact List.Perm.refl _
    · exact (ih.cons x).trans (List.Perm.swap r x xs)

theorem mem_insertReq (l : List Request) (r x : Request) :
    x ∈ insertReq l r ↔ x = r ∨ x ∈ l := by
  rw [(insertReq_perm l r).mem_iff]
  simp

theorem insertReq_sorted (l : List Request) (r : Request) (hs : RequestsSorted l)
    (hne : ∀ x ∈ l, x.event_id ≠ r.event_id) : RequestsSorted (insertReq l r) := by
  induction l with
  | nil => simp [insertReq, RequestsSorted]
  | cons x xs ih =>
    obtain ⟨hx, hxs⟩ := List.pairwise_cons.mp hs
    rw [insertReq]
    split
    · rename_i hlt
      refine List.pairwise_cons.mpr ⟨?_, hs⟩
      intro y hy
      rcases List.mem_cons.mp hy with rfl | hy
      · exact hlt
      · exact lt_trans hlt (hx y hy)
    · rename_i hnlt
      refine List.pairwise_cons.mpr ⟨?_, ih hxs (fun z hz => hne z (List.mem_cons_of_mem x hz))⟩
      intro y hy
      rcases (mem_insertReq xs r y).mp hy with rfl | hy
      · exact lt_of_le_of_ne (not_lt.mp hnlt) (hne x (List.mem_cons_self x xs))
      · exact hx y hy

theorem startLoop_keys (env : FetchEnv) (rand : Nat → Nat) (now : Nat) :
    ∀ fuel k (r : Request) (acc : List Request),
      ((startLoop env rand now fuel k r acc).req.room_id = r.room_id)
      ∧ ((startLoop env rand now fuel k r acc).req.event_id = r.event_id)
      ∧ ((startLoop env rand now fuel k r acc).req.promise = r.promise) := by
  intro fuel
  induction fuel with
  | zero =>
    intro k r acc
    rw [startLoop]
    exact ⟨rfl, rfl, rfl⟩
  | succ fuel ih =>
    intro k r acc
    rw [startLoop]
    split
    · exact ⟨rfl, rfl, rfl⟩
    · split
      · rename_i r1 heq
        have hr1 : r1 = (start1 env now r).2 := (congrArg Prod.snd heq).symm
        subst hr1
        obtain f := start1_fields env now r
        exact ⟨f.1, f.2.1, f.2.2.1⟩
      · rename_i r1 heq
        have hr1 : r1 = (start1 env now r).2 := (congrArg Prod.snd heq).symm
        subst hr1
        obtain f := start1_fields env now r
        split
        · rename_i r2 hsel
          obtain ⟨p1, p2, p3, -⟩ := (select_pres env (rand k) _).1 r2 hsel
          obtain ⟨s1, s2, s3⟩ := ih (k + 1) r2 _
          exact ⟨by rw [s1, p1, f.1], by rw [s2, p2, f.2.1], by rw [s3, p3, f.2.2.1]⟩
        · rename_i fst rerr hsel
          obtain ⟨q1, q2, q3, -⟩ := (select_pres env (rand k) _).2 fst rerr hsel
          dsimp only [finishReq]
          exact ⟨by rw [q1, f.1], by rw [q2, f.2.1], by rw [q3, f.2.2.1]⟩

theorem startAfterStamp_keys (env : FetchEnv) (rand : Nat → Nat) (now : Nat) (r0 : Request) :
    ((startAfterStamp env rand now r0).req.room_id = r0.room_id)
    ∧ ((startAfterStamp env rand now r0).req.event_id = r0.event_id)
    ∧ ((startAfterStamp env rand now r0).req.promise = r0.promise) := by
  unfold startAfterStamp
  split
  · split
    · rename_i fst rerr hsel
      obtain ⟨q1, q2, q3, -⟩ := (select_pres env (rand 0) _).2 fst rerr hsel
      dsimp only [finishReq]
      exact ⟨q1, q2, q3⟩
    · rename_i r1 hsel
      obtain ⟨p1, p2, p3, -⟩ := (select_pres env (rand 0) _).1 r1 hsel
      obtain ⟨s1, s2, s3⟩ := startLoop_keys env rand now _ 1 r1 []
      exact ⟨by rw [s1, p1], by rw [s2, p2], by rw [s3, p3]⟩
  · exact startLoop_keys env rand now _ 0 r0 []

theorem startOuter_keys (env : FetchEnv) (rand : Nat → Nat) (now : Nat) (r : Request) :
    ((startOuter env rand now r).req.room_id = r.room_id)
    ∧ ((startOuter env rand now r).req.event_id = r.event_id)
    ∧ ((startOuter env rand now r).req.promise = r.promise) := by
  unfold startOuter
  obtain ⟨a1, a2, a3⟩ := startAfterStamp_keys env rand now
    (if r.started = 0 then { r with started := now } else r)
  have hstamp : ((if r.started = 0 then { r with started := now } else r).room_id = r.room_id)
      ∧ ((if r.started = 0 then { r with started := now } else r).event_id = r.event_id)
      ∧ ((if r.started = 0 then { r with started := now } else r).promise = r.promise) := by
    split <;> exact ⟨rfl, rfl, rfl⟩
  exact ⟨by rw [a1, hstamp.1], by rw [a2, hstamp.2.1], by rw [a3, hstamp.2.2]⟩

/-- C1 — `submit` keeps at most one request per `event_id`: on the
sorted request set, a duplicate submission inserts nothing, leaves the set
unchanged and returns an empty future; a fresh submission inserts exactly
one new request keyed by the `event_id` with the given promise and returns
a future backed by that promise; and strict sortedness (hence per-id
uniqueness) of the set is preserved. -/
theorem submit_spec (env : FetchEnv) (rand : Nat → Nat) (now : Nat)
    (requests : List Request) (event_id room_id : String) (promise : Nat)
    (hs : RequestsSorted requests) :
    ((∃ x ∈ requests, x.event_id = event_id) →
      submit env rand now requests event_id room_id promise = (requests, Future.empty))
    ∧ ((¬ ∃ x ∈ requests, x.event_id = event_id) →
      ∃ r, (submit env rand now requests event_id room_id promise).1.Perm (r :: requests)
        ∧ r.event_id = event_id ∧ r.room_id = room_id ∧ r.promise = promise
        ∧ (submit env rand now requests event_id room_id promise).2 = Future.backed promise)
    ∧ RequestsSorted (submit env rand now requests event_id room_id promise).1 := by
  by_cases hdup : submitDup requests event_id = true
  · have hex := (submitDup_iff requests event_id hs).mp hdup
    refine ⟨fun _ => by simp [submit, hdup], fun hne => absurd hex hne, ?_⟩
    simp only [submit, hdup, if_true]
    exact hs
  · have hnex : ¬ ∃ x ∈ requests, x.event_id = event_id := fun hex =>
      hdup ((submitDup_iff requests event_id hs).mpr hex)
    have hd : submitDup requests event_id = false := Bool.eq_false_iff.mpr hdup
    obtain ⟨k1, k2, k3⟩ := startOuter_keys env rand now (mkRequest room_id event_id promise)
    refine ⟨fun hex => absurd hex hnex, fun _ => ?_, ?_⟩
    · refine ⟨(startOuter env rand now (mkRequest room_id event_id promise)).req, ?_, ?_, ?_, ?_, ?_⟩
      · simp only [submit, hd, Bool.false_eq_true, if_false]
        exact insertReq_perm requests _
      · rw [k2]; rfl
      · rw [k1]; rfl
      · rw [k3]; rfl
      · simp [submit, hd]
    · simp only [submit, hd, Bool.false_eq_true, if_false]
      refine insertReq_sorted requests _ hs ?_
      intro x hx hcon
      exact hnex ⟨x, hx, by rw [hcon, k2]; rfl⟩

/-- Witness for C1: a fresh submission into the empty request set inserts
exactly one request keyed by the event id and returns a future backed by
its promise. -/
theorem submit_spec_witness :
    ∃ r, (submit c1env (fun _ => 0) 4 [] "$x" "!room" 9).1.Perm (r :: [])
      ∧ r.event_id = "$x" ∧ r.room_id = "!room" ∧ r.promise = 9
      ∧ (submit c1env (fun _ => 0) 4 [] "$x" "!room" 9).2 = Future.backed 9 :=
  (submit_spec c1env (fun _ => 0) 4 [] "$x" "!room" 9 List.Pairwise.nil).2.1 (by simp)

end Construct
